import Mathlib

/-!
# Verification of the carsus unification / cross-referencing core

The repository snapshot under verification contains only documentation,
notebooks and CI configuration for the carsus atomic-data pipeline; the
Python core (`carsus/io/output`, the level/line unification engine) is not
part of the snapshot.  Every definition below is therefore a shallow
embedding modelled from the specification of that core: levels are
normalized per-source rows, a merge engine selects one winning source per
species by priority with an explicit tiebreak ordering, a global-identifier
assigner numbers levels by ascending energy and encodes `level_id`, a
transition matcher resolves raw lines against assigned levels (directly by
source-local index for the winning source, by nearest energy within a
tolerance otherwise), and a macro-atom builder derives the normalized
transition-probability table.

Energies and strengths are modelled as rationals (`ℚ`); all definitions are
executable.
-/

namespace Carsus

/-- Modelled from the spec: the fixed encoding base for `level_id`
(`carsus/io/output` is absent from the snapshot).  The spec requires a
documented constant larger than any realistic level count per species. -/
def LEVEL_ID_BASE : ℕ := 1000

/-- Modelled from the spec: the invertible encoding of
`(atomic_number, ion_charge, level_number)` into a global `level_id`.
The supported domain is `atomic_number ≤ 118`, `ion_charge < atomic_number`,
`level_number < LEVEL_ID_BASE`. -/
def encodeLevelId (z i n : ℕ) : ℕ := (z * 119 + i) * LEVEL_ID_BASE + n

/-- Modelled from the spec: the decoder, inverse of `encodeLevelId` on the
supported domain. -/
def decodeLevelId (c : ℕ) : ℕ × ℕ × ℕ :=
  ((c / LEVEL_ID_BASE) / 119, (c / LEVEL_ID_BASE) % 119, c % LEVEL_ID_BASE)

/-- A species key: `(atomic_number, ion_charge)`. -/
abbrev Species := ℕ × ℕ

/-- Modelled from the spec: one canonical (normalized) level row, as produced
by the Level Normalizer: species key, source-local `level_index`, energy on
the canonical scale, statistical weight `g`. -/
structure NormRow where
  atomic_number : ℕ
  ion_charge : ℕ
  level_index : ℕ
  energy : ℚ
  g : ℕ
deriving DecidableEq

/-- The species a normalized row belongs to. -/
def NormRow.species (r : NormRow) : Species := (r.atomic_number, r.ion_charge)

/-- Modelled from the spec: one raw transition (line) record of a source,
referencing the originating source's local level indices and carrying the
labeled energies of both endpoints and a strength measure. -/
structure RawLine where
  atomic_number : ℕ
  ion_charge : ℕ
  lower_index : ℕ
  upper_index : ℕ
  energy_lower : ℚ
  energy_upper : ℚ
  strength : ℚ
deriving DecidableEq

/-- Modelled from the spec: one input source: a label, an explicit level
priority, an independent transition priority, an explicit tiebreak rank
(position in the caller-supplied tiebreak ordering), its normalized level
rows and its raw transition records. -/
structure Source where
  label : ℕ
  priority : ℕ
  tpriority : ℕ
  tiebreak : ℕ
  rows : List NormRow
  lines : List RawLine
deriving DecidableEq

/-- Whether a source supplies at least one level of the given species. -/
def Source.supplies (s : Source) (sp : Species) : Bool :=
  s.rows.any fun r => decide (r.species = sp)

/-! ## Canonical species ordering

The spec processes species in a fixed total order (ascending
`atomic_number`, then `ion_charge`), which makes the output independent of
the order in which the input tables were supplied. -/

/-- The canonical (lexicographic) order on species keys. -/
def spLe (a b : Species) : Prop :=
  a.1 < b.1 ∨ (a.1 = b.1 ∧ a.2 ≤ b.2)

instance : DecidableRel spLe := fun a b =>
  inferInstanceAs (Decidable (a.1 < b.1 ∨ (a.1 = b.1 ∧ a.2 ≤ b.2)))

instance : IsTotal Species spLe :=
  ⟨by intro a b; unfold spLe; omega⟩

instance : IsTrans Species spLe :=
  ⟨by intro a b c; unfold spLe; omega⟩

instance : IsAntisymm Species spLe :=
  ⟨by
    intro a b h1 h2
    obtain ⟨a1, a2⟩ := a
    obtain ⟨b1, b2⟩ := b
    unfold spLe at h1 h2
    simp only [Prod.mk.injEq]
    omega⟩

/-- All species keys mentioned by any row of any input table (with
multiplicity, in supply order). -/
def allSpecies (l : List Source) : List Species :=
  l.flatMap fun s => s.rows.map NormRow.species

/-- Collapse adjacent duplicates of a (sorted) list. -/
def dedupAdj : List Species → List Species
  | [] => []
  | [a] => [a]
  | a :: b :: t => if a = b then dedupAdj (b :: t) else a :: dedupAdj (b :: t)

/-- The canonical species worklist: every species present in any input,
sorted ascending by `(atomic_number, ion_charge)`, without duplicates. -/
def canonSpecies (l : List Source) : List Species :=
  dedupAdj (List.insertionSort spLe (allSpecies l))

/-! ## Merge Engine

For each species, the single highest-priority source supplying it wins; a
priority tie is broken by the explicit tiebreak ordering (smaller tiebreak
rank wins).  Selection is per species key; levels of two sources are never
mixed within one species. -/

/-- `beats a b`: source `a` is strictly preferred over source `b` (higher
priority, or equal priority and earlier in the tiebreak ordering). -/
def beats (a b : Source) : Prop :=
  b.priority < a.priority ∨ (a.priority = b.priority ∧ a.tiebreak < b.tiebreak)

instance : DecidableRel beats := fun a b =>
  inferInstanceAs (Decidable (b.priority < a.priority ∨ _))

/-- The preferred of two candidate sources (left-biased on a full tie). -/
def best2 (w s : Source) : Source := if beats s w then s else w

/-- One step of the winner scan over the supplied tables. -/
def pickStep (sp : Species) (acc : Option Source) (s : Source) : Option Source :=
  if s.supplies sp then
    match acc with
    | none => some s
    | some w => some (best2 w s)
  else acc

/-- Modelled from the spec: the Merge Engine's per-species selection: the
single highest-priority source supplying `sp`, ties broken by the explicit
tiebreak ordering. -/
def pickWinner (sp : Species) (l : List Source) : Option Source :=
  l.foldl (pickStep sp) none

/-- Modelled from the spec: the merged level table for one species: exactly
the winning source's normalized rows for that species. -/
def mergedRows (l : List Source) (sp : Species) : List NormRow :=
  match pickWinner sp l with
  | none => []
  | some w => w.rows.filter fun r => decide (r.species = sp)

/-- Modelled from the spec: the diagnostic record of overridden species:
for each species, every supplying source that lost, together with the
winner's label. -/
def overriddenReport (l : List Source) : List (Species × ℕ × ℕ) :=
  (canonSpecies l).flatMap fun sp =>
    match pickWinner sp l with
    | none => []
    | some w =>
      (l.filter fun t => t.supplies sp && decide (t.label ≠ w.label)).map
        fun t => (sp, t.label, w.label)

/-! ## Global-ID Assigner -/

/-- A level row after global-identifier assignment. -/
structure ALevel where
  atomic_number : ℕ
  ion_charge : ℕ
  level_index : ℕ
  energy : ℚ
  g : ℕ
  level_number : ℕ
  level_id : ℕ
deriving DecidableEq

/-- The ordering used to rank levels inside one species: ascending energy
(`insertionSort` with this relation is stable, so exact energy ties keep
the original source order). -/
def energyLe (a b : NormRow) : Prop := a.energy ≤ b.energy

instance : DecidableRel energyLe := fun a b =>
  inferInstanceAs (Decidable (a.energy ≤ b.energy))

instance : IsTotal NormRow energyLe :=
  ⟨fun a b => le_total a.energy b.energy⟩

instance : IsTrans NormRow energyLe :=
  ⟨fun _ _ _ h1 h2 => le_trans h1 h2⟩

/-- Number a list of rows consecutively starting at `n`, attaching the
encoded `level_id`. -/
def numberFrom (n : ℕ) : List NormRow → List ALevel
  | [] => []
  | r :: t =>
    ⟨r.atomic_number, r.ion_charge, r.level_index, r.energy, r.g, n,
      encodeLevelId r.atomic_number r.ion_charge n⟩ :: numberFrom (n + 1) t

/-- Modelled from the spec: the Global-ID Assigner for one species group:
stable-sort by ascending energy, assign `level_number` = rank, compute
`level_id` by the fixed encoding. -/
def assignSpecies (rows : List NormRow) : List ALevel :=
  numberFrom 0 (List.insertionSort energyLe rows)

/-- The assigned level table of one species of the pipeline. -/
def levelsFor (l : List Source) (sp : Species) : List ALevel :=
  assignSpecies (mergedRows l sp)

/-- The consolidated assigned level table, species in canonical order. -/
def levelsTable (l : List Source) : List ALevel :=
  (canonSpecies l).flatMap (levelsFor l)

/-- The per-species view of the assigned level table. -/
def levelsPairs (l : List Source) : List (Species × List ALevel) :=
  (canonSpecies l).map fun sp => (sp, levelsFor l sp)

/-! ## Transition Matcher

A transition of the source that won its species is mapped directly through
the source-local `level_index`; a transition of any other source is resolved
by nearest-energy match within the tolerance `ε`, ambiguity broken by
minimum absolute energy difference.  A transition with no candidate within
`ε` is dropped and counted as a match failure.  Rows whose labeled upper
energy is below the lower are repaired by the documented label swap; exact
ties are dropped as anomalies. -/

/-- Find the assigned level carrying a given source-local index. -/
def findByIndex (lvls : List ALevel) (idx : ℕ) : Option ALevel :=
  lvls.find? fun v => decide (v.level_index = idx)

/-- One step of the nearest-energy scan. -/
def nearStep (e ε : ℚ) (acc : Option ALevel) (v : ALevel) : Option ALevel :=
  if |v.energy - e| ≤ ε then
    match acc with
    | none => some v
    | some w => if |v.energy - e| < |w.energy - e| then some v else some w
  else acc

/-- The nearest-energy candidate within tolerance `ε`, if any (left-biased
on an exact distance tie, i.e. the lower `level_number` wins). -/
def nearest (lvls : List ALevel) (e ε : ℚ) : Option ALevel :=
  lvls.foldl (nearStep e ε) none

/-- Whether `src` is the source that won species `sp`. -/
def isWinner (l : List Source) (sp : Species) (src : Source) : Bool :=
  match pickWinner sp l with
  | some w => decide (w.label = src.label)
  | none => false

/-- Modelled from the spec: resolve one raw transition to a pair of assigned
levels: directly by `level_index` if the originating source won the species,
else by nearest-energy match within `ε` for both endpoints. -/
def resolveLine (l : List Source) (ε : ℚ) (src : Source) (t : RawLine) :
    Option (ALevel × ALevel) :=
  let sp : Species := (t.atomic_number, t.ion_charge)
  let lvls := levelsFor l sp
  if isWinner l sp src then
    (findByIndex lvls t.lower_index).bind fun lo =>
      (findByIndex lvls t.upper_index).map fun up => (lo, up)
  else
    (nearest lvls t.energy_lower ε).bind fun lo =>
      (nearest lvls t.energy_upper ε).map fun up => (lo, up)

/-- Validation / repair: keep the pair if the upper level's energy is
strictly above the lower's, swap the labels if it is strictly below
(documented convention), drop the row on an exact tie. -/
def validatePair (p : ALevel × ALevel) : Option (ALevel × ALevel) :=
  if p.1.energy < p.2.energy then some p
  else if p.2.energy < p.1.energy then some (p.2, p.1)
  else none

/-- A matched, validated transition row of the consolidated line table. -/
structure MLine where
  atomic_number : ℕ
  ion_charge : ℕ
  level_number_lower : ℕ
  level_number_upper : ℕ
  level_id_lower : ℕ
  level_id_upper : ℕ
  energy_lower : ℚ
  energy_upper : ℚ
  g_lower : ℕ
  g_upper : ℕ
  strength : ℚ
  tprio : ℕ
  tiebreak : ℕ
  label : ℕ
deriving DecidableEq

/-- Build the consolidated row from a validated level pair. -/
def mkMLine (src : Source) (t : RawLine) (p : ALevel × ALevel) : MLine :=
  ⟨t.atomic_number, t.ion_charge, p.1.level_number, p.2.level_number,
    p.1.level_id, p.2.level_id, p.1.energy, p.2.energy, p.1.g, p.2.g,
    t.strength, src.tpriority, src.tiebreak, src.label⟩

/-- All matched, validated transition rows contributed by one source. -/
def matchedOf (l : List Source) (ε : ℚ) (src : Source) : List MLine :=
  src.lines.filterMap fun t =>
    ((resolveLine l ε src t).bind validatePair).map (mkMLine src t)

/-- The number of match failures (no candidate within `ε`) of one source. -/
def failCount (l : List Source) (ε : ℚ) (src : Source) : ℕ :=
  src.lines.countP fun t => (resolveLine l ε src t).isNone

/-! ## Deduplication across sources

When the same `(species, lower level_number, upper level_number)` transition
is supplied by more than one source, only the highest transition-priority
source's row is kept (ties broken by the explicit tiebreak ordering).  The
consolidated table is kept as a key-sorted association list, which makes its
representation canonical. -/

/-- The deduplication key of a matched row. -/
abbrev LKey := ℕ × ℕ × ℕ × ℕ

/-- The key of a matched row. -/
def mkey (m : MLine) : LKey :=
  (m.atomic_number, m.ion_charge, m.level_number_lower, m.level_number_upper)

/-- Lexicographic strict order on dedup keys. -/
def keyLt (a b : LKey) : Prop :=
  a.1 < b.1 ∨ (a.1 = b.1 ∧ (a.2.1 < b.2.1 ∨ (a.2.1 = b.2.1 ∧
    (a.2.2.1 < b.2.2.1 ∨ (a.2.2.1 = b.2.2.1 ∧ a.2.2.2 < b.2.2.2)))))

instance : DecidableRel keyLt := fun a b =>
  inferInstanceAs (Decidable (a.1 < b.1 ∨ _))

/-- `tbeats a b`: row `a` wins deduplication against row `b` (higher
transition priority, tie broken by the tiebreak ordering). -/
def tbeats (a b : MLine) : Prop :=
  b.tprio < a.tprio ∨ (a.tprio = b.tprio ∧ a.tiebreak < b.tiebreak)

instance : DecidableRel tbeats := fun a b =>
  inferInstanceAs (Decidable (b.tprio < a.tprio ∨ _))

/-- The kept row when two rows share a key (left-biased on a full tie). -/
def tbest (old new : MLine) : MLine := if tbeats new old then new else old

/-- Insert a row into the key-sorted association list, resolving an existing
key by transition priority. -/
def insUpd (k : LKey) (v : MLine) : List (LKey × MLine) → List (LKey × MLine)
  | [] => [(k, v)]
  | (k', v') :: t =>
    if keyLt k k' then (k, v) :: (k', v') :: t
    else if k = k' then (k', tbest v' v) :: t
    else (k', v') :: insUpd k v t

/-- Insert all matched rows of one source. -/
def insertSrc (l : List Source) (ε : ℚ) (st : List (LKey × MLine))
    (src : Source) : List (LKey × MLine) :=
  (matchedOf l ε src).foldl (fun st m => insUpd (mkey m) m st) st

/-- The consolidated, deduplicated line map of the whole run. -/
def linesMap (l : List Source) (ε : ℚ) : List (LKey × MLine) :=
  l.foldl (insertSrc l ε) []

/-- Modelled from the spec: the consolidated output line table, in canonical
key order (species, then lower, then upper `level_number`). -/
def linesTable (l : List Source) (ε : ℚ) : List MLine :=
  (linesMap l ε).map Prod.snd

/-! ## Macro-Atom Reference Builder -/

/-- The four transition types of the macro-atom table. -/
inductive TType
  | downRad
  | upRad
  | downInt
  | upInt
deriving DecidableEq

/-- A numeric index for sorting transition types deterministically. -/
def TType.idx : TType → ℕ
  | .downRad => 0
  | .upRad => 1
  | .downInt => 2
  | .upInt => 3

/-- One row of the macro-atom transition table: source level, destination
level, transition type and (after normalization) transition probability. -/
structure MTRow where
  source_level : ℕ
  source_ln : ℕ
  dest_level : ℕ
  dest_ln : ℕ
  ttype : TType
  prob : ℚ
deriving DecidableEq

/-- Modelled from the spec: the unnormalized macro-atom rows derived from
the consolidated lines: each line contributes one downward-radiative row
(upper → lower) and one upward-radiative row (lower → upper), weighted by
the line strength and the levels' statistical weights. -/
def mtRaw (lines : List MLine) : List MTRow :=
  lines.flatMap fun m =>
    [⟨m.level_id_upper, m.level_number_upper, m.level_id_lower,
        m.level_number_lower, .downRad, m.strength * (m.g_upper : ℚ)⟩,
      ⟨m.level_id_lower, m.level_number_lower, m.level_id_upper,
        m.level_number_upper, .upRad, m.strength * (m.g_lower : ℚ)⟩]

/-- The rows of one `(source level_id, transition type)` group. -/
def mtGroup (rows : List MTRow) (sid : ℕ) (tt : TType) : List MTRow :=
  rows.filter fun r => decide (r.source_level = sid ∧ r.ttype = tt)

/-- The total weight of one group. -/
def gsum (rows : List MTRow) (sid : ℕ) (tt : TType) : ℚ :=
  ((mtGroup rows sid tt).map MTRow.prob).sum

/-- Modelled from the spec: per-group probability normalization: each row is
divided by the total weight of its `(source level_id, transition type)`
group. -/
def mtNormalize (rows : List MTRow) : List MTRow :=
  rows.map fun r => { r with prob := r.prob / gsum rows r.source_level r.ttype }

/-- Deterministic ordering of the macro-atom table: grouped by source level,
each group sorted by ascending destination `level_number`. -/
def mtLe (a b : MTRow) : Prop :=
  a.source_level < b.source_level ∨ (a.source_level = b.source_level ∧
    (a.ttype.idx < b.ttype.idx ∨ (a.ttype.idx = b.ttype.idx ∧ a.dest_ln ≤ b.dest_ln)))

instance : DecidableRel mtLe := fun a b =>
  inferInstanceAs (Decidable (a.source_level < b.source_level ∨ _))

instance : IsTotal MTRow mtLe :=
  ⟨by intro a b; unfold mtLe; omega⟩

instance : IsTrans MTRow mtLe :=
  ⟨by intro a b c; unfold mtLe; omega⟩

/-- Modelled from the spec: the macro-atom transition table of the run:
normalized probabilities, deterministic ordering. -/
def mtTable (l : List Source) (ε : ℚ) : List MTRow :=
  List.insertionSort mtLe (mtNormalize (mtRaw (linesTable l ε)))

/-- Per `level_id`: counts of distinct downward and upward radiative rows. -/
def mtReferences (rows : List MTRow) (sid : ℕ) : ℕ × ℕ :=
  ((mtGroup rows sid .downRad).length, (mtGroup rows sid .upRad).length)

/-! ## Run modes and per-species validation -/

/-- The complete per-species output of one run. -/
structure SpeciesOut where
  sp : Species
  levels : List ALevel
  lines : List MLine
  mrows : List MTRow
deriving DecidableEq

/-- Boolean check: energies listed in non-decreasing order. -/
def energiesSortedB : List ALevel → Bool
  | [] => true
  | [_] => true
  | a :: b :: t => decide (a.energy ≤ b.energy) && energiesSortedB (b :: t)

/-- The §3 consistency invariants of one species group, as an executable
check: contiguous `level_number` range in energy order, strictly ordered
line endpoints, and normalized macro-atom groups. -/
def speciesValid (o : SpeciesOut) : Bool :=
  decide (o.levels.map ALevel.level_number = List.range o.levels.length) &&
  energiesSortedB o.levels &&
  o.lines.all (fun m => decide (m.energy_lower < m.energy_upper)) &&
  o.mrows.all (fun r =>
    decide (|((mtGroup o.mrows r.source_level r.ttype).map MTRow.prob).sum - 1|
      ≤ 1 / 1000000000))

/-- The per-species outputs of one run, in canonical species order. -/
def speciesOutputs (l : List Source) (ε : ℚ) : List SpeciesOut :=
  (canonSpecies l).map fun sp =>
    let lns := (linesTable l ε).filter fun m =>
      decide ((m.atomic_number, m.ion_charge) = sp)
    ⟨sp, levelsFor l sp, lns, List.insertionSort mtLe (mtNormalize (mtRaw lns))⟩

/-- Modelled from the spec: the lenient run: species groups that violate the
consistency invariants are dropped from the output and recorded in the
violation report. -/
def runLenient (l : List Source) (ε : ℚ) : List SpeciesOut × List Species :=
  ((speciesOutputs l ε).filter speciesValid,
    ((speciesOutputs l ε).filter fun o => !speciesValid o).map SpeciesOut.sp)

/-- Modelled from the spec: the strict run: the first consistency violation
aborts the whole run. -/
def runStrict (l : List Source) (ε : ℚ) : Except Species (List SpeciesOut) :=
  match (speciesOutputs l ε).find? (fun o => !speciesValid o) with
  | some o => .error o.sp
  | none => .ok (speciesOutputs l ε)

/-! ## Concrete sample sources

The spec's worked example: source A (priority 5) supplies species `(14, 1)`
with levels at energies `[0.0, 1.5, 0.8]`; source B (priority 9) supplies a
different level set for the same species.  Source L is a low-priority source
whose single transition's labeled energies are far from every level. -/

/-- Sample source A of the spec's priority-resolution example. -/
def srcA : Source where
  label := 1
  priority := 5
  tpriority := 5
  tiebreak := 0
  rows := [⟨14, 1, 0, 0, 2⟩, ⟨14, 1, 1, 3/2, 2⟩, ⟨14, 1, 2, 4/5, 2⟩]
  lines := [⟨14, 1, 0, 2, 0, 4/5, 1⟩]

/-- Sample source B of the spec's priority-resolution example. -/
def srcB : Source where
  label := 2
  priority := 9
  tpriority := 9
  tiebreak := 1
  rows := [⟨14, 1, 0, 0, 1⟩, ⟨14, 1, 1, 1/2, 3⟩]
  lines := [⟨14, 1, 0, 1, 0, 1/2, 2⟩]

/-- Sample low-priority source whose transition matches no level within
tolerance. -/
def srcL : Source where
  label := 3
  priority := 1
  tpriority := 1
  tiebreak := 2
  rows := []
  lines := [⟨14, 1, 0, 1, 100, 101, 1⟩]

/-! ## Lemmas about the Global-ID Assigner -/

theorem numberFrom_length (n : ℕ) (l : List NormRow) :
    (numberFrom n l).length = l.length := by
  induction l generalizing n with
  | nil => rfl
  | cons r t ih => simp [numberFrom, ih]

theorem numberFrom_map_ln (n : ℕ) (l : List NormRow) :
    (numberFrom n l).map ALevel.level_number = List.range' n l.length := by
  induction l generalizing n with
  | nil => rfl
  | cons r t ih => simp [numberFrom, List.range'_succ, ih]

theorem numberFrom_mem {n : ℕ} {l : List NormRow} {a : ALevel}
    (h : a ∈ numberFrom n l) :
    ∃ i, ∃ hi : i < l.length,
      a.level_number = n + i ∧ a.energy = l[i].energy := by
  induction l generalizing n with
  | nil => simp [numberFrom] at h
  | cons r t ih =>
    simp only [numberFrom, List.mem_cons] at h
    rcases h with h | h
    · exact ⟨0, by simp, by simp [h]⟩
    · obtain ⟨i, hi, h1, h2⟩ := ih h
      exact ⟨i + 1, by simpa using hi, by omega, by simpa using h2⟩

theorem assignSpecies_map_ln (rows : List NormRow) :
    (assignSpecies rows).map ALevel.level_number =
      List.range (assignSpecies rows).length := by
  unfold assignSpecies
  rw [numberFrom_map_ln, numberFrom_length, List.range_eq_range']

theorem assignSpecies_strict_increase (rows : List NormRow) :
    ∀ a ∈ assignSpecies rows, ∀ b ∈ assignSpecies rows,
      a.energy < b.energy → a.level_number < b.level_number := by
  intro a ha b hb hab
  unfold assignSpecies at ha hb
  obtain ⟨i, hi, hai, hae⟩ := numberFrom_mem ha
  obtain ⟨j, hj, hbj, hbe⟩ := numberFrom_mem hb
  have hsorted : (List.insertionSort energyLe rows).Sorted energyLe :=
    List.sorted_insertionSort energyLe rows
  by_contra hc
  have hji : j ≤ i := by omega
  rcases Nat.lt_or_ge j i with hlt | hge
  · have h2 := hsorted.rel_get_of_lt (a := ⟨j, hj⟩) (b := ⟨i, hi⟩) hlt
    simp only [List.get_eq_getElem] at h2
    have hle : (List.insertionSort energyLe rows)[j].energy ≤
        (List.insertionSort energyLe rows)[i].energy := h2
    rw [← hae, ← hbe] at hle
    exact absurd hab (not_lt.mpr hle)
  · have hij : i = j := by omega
    subst hij
    rw [hae, hbe] at hab
    exact absurd hab (lt_irrefl _)

/-- **C1**: for every valid triple (`atomic_number ≤ 118`,
`ion_charge < atomic_number`, `level_number < LEVEL_ID_BASE`),
`decodeLevelId (encodeLevelId z i n) = (z, i, n)`, and `encodeLevelId` is
injective over that domain. -/
theorem claim_C1_encode_decode (z i n z' i' n' : ℕ)
    (hz : z ≤ 118) (hi : i < z) (hn : n < LEVEL_ID_BASE)
    (hz' : z' ≤ 118) (hi' : i' < z') (hn' : n' < LEVEL_ID_BASE) :
    decodeLevelId (encodeLevelId z i n) = (z, i, n) ∧
      (encodeLevelId z i n = encodeLevelId z' i' n' →
        z = z' ∧ i = i' ∧ n = n') := by
  unfold encodeLevelId decodeLevelId LEVEL_ID_BASE at *
  constructor
  · simp only [Prod.mk.injEq]
    omega
  · intro h
    omega

/-- Witness for C1 at the concrete valid triples `(14, 1, 5)` and
`(14, 1, 6)`. -/
theorem claim_C1_witness :
    ((14 : ℕ) ≤ 118 ∧ (1 : ℕ) < 14 ∧ (5 : ℕ) < LEVEL_ID_BASE ∧
        (6 : ℕ) < LEVEL_ID_BASE) ∧
      (decodeLevelId (encodeLevelId 14 1 5) = (14, 1, 5) ∧
        (encodeLevelId 14 1 5 = encodeLevelId 14 1 6 →
          (14 : ℕ) = 14 ∧ (1 : ℕ) = 1 ∧ (5 : ℕ) = 6)) :=
  ⟨by decide,
    claim_C1_encode_decode 14 1 5 14 1 6 (by decide) (by decide) (by decide)
      (by decide) (by decide) (by decide)⟩

/-- **C2**: for every species in the output level table with `n` levels, the
`level_number` values are exactly `0, 1, …, n-1` (in list order), and
`level_number` is strictly increasing with level energy within the
species. -/
theorem claim_C2_level_numbers (l : List Source) (sp : Species)
    (lvls : List ALevel) (hmem : (sp, lvls) ∈ levelsPairs l) :
    lvls.map ALevel.level_number = List.range lvls.length ∧
      ∀ a ∈ lvls, ∀ b ∈ lvls,
        a.energy < b.energy → a.level_number < b.level_number := by
  unfold levelsPairs at hmem
  simp only [List.mem_map] at hmem
  obtain ⟨sp', _, heq⟩ := hmem
  cases heq
  exact ⟨assignSpecies_map_ln _, assignSpecies_strict_increase _⟩

/-- Witness for C2: the single-source run on sample source A, species
`(14, 1)`. -/
theorem claim_C2_witness :
    (((14, 1) : Species), levelsFor [srcA] (14, 1)) ∈ levelsPairs [srcA] ∧
      ((levelsFor [srcA] (14, 1)).map ALevel.level_number =
          List.range (levelsFor [srcA] (14, 1)).length ∧
        ∀ a ∈ levelsFor [srcA] (14, 1), ∀ b ∈ levelsFor [srcA] (14, 1),
          a.energy < b.energy → a.level_number < b.level_number) := by
  have h : (((14, 1) : Species), levelsFor [srcA] (14, 1)) ∈ levelsPairs [srcA] := by
    have hc : canonSpecies [srcA] = [(14, 1)] := by decide
    simp [levelsPairs, hc]
  exact ⟨h, claim_C2_level_numbers [srcA] (14, 1) _ h⟩

/-- **C8** counterexample: with source A's levels of species `(14, 1)` at
energies `[0, 3/2, 4/5]` (source-local indices 0, 1, 2), the transition
referencing source-local indices `0 → 2` resolves to
`(level_number 0, level_number 1)` — the level at energy `4/5` receives
`level_number` 1, not 2 as the claim states. -/
theorem claim_C8_counterexample :
    ((resolveLine [srcA] (1 / 1000) srcA ⟨14, 1, 0, 2, 0, 4 / 5, 1⟩).map
        fun p => (p.1.level_number, p.2.level_number)) = some (0, 1) ∧
      ((resolveLine [srcA] (1 / 1000) srcA ⟨14, 1, 0, 2, 0, 4 / 5, 1⟩).map
        fun p => (p.1.level_number, p.2.level_number)) ≠ some (0, 2) := by
  constructor
  · with_unfolding_all decide
  · with_unfolding_all decide

/-- **C8** (amended): source A's levels at energies `[0, 3/2, 4/5]` of
species `(14, 1)` receive `level_number` 0 → energy 0, 1 → energy 4/5,
2 → energy 3/2 (ascending energy order), and the transition referencing
source-local indices `0 → 2` resolves to lower `level_number` 0 and upper
`level_number` 1. -/
theorem claim_C8_amended :
    ((levelsFor [srcA] (14, 1)).map fun v => (v.level_number, v.energy)) =
        [(0, (0 : ℚ)), (1, 4 / 5), (2, 3 / 2)] ∧
      ((resolveLine [srcA] (1 / 1000) srcA ⟨14, 1, 0, 2, 0, 4 / 5, 1⟩).map
        fun p => (p.1.level_number, p.2.level_number)) = some (0, 1) := by
  constructor
  · with_unfolding_all decide
  · with_unfolding_all decide

/-! ## Lemmas about the Merge Engine -/

theorem beats_irrefl (s : Source) : ¬ beats s s := by
  unfold beats; omega

theorem best2_cases (w s : Source) : best2 w s = w ∨ best2 w s = s := by
  unfold best2; split
  · exact Or.inr rfl
  · exact Or.inl rfl

theorem not_beats_of_not_beats_beats {t w s : Source}
    (h1 : ¬ beats t w) (h2 : beats s w) : ¬ beats t s := by
  unfold beats at *; omega

theorem best2_not_beaten_left (w s : Source) : ¬ beats w (best2 w s) := by
  unfold best2; split
  · exact not_beats_of_not_beats_beats (beats_irrefl w) ‹_›
  · exact beats_irrefl w

theorem best2_not_beaten_right (w s : Source) : ¬ beats s (best2 w s) := by
  unfold best2; split
  · exact beats_irrefl s
  · assumption

theorem not_beats_best2 {t w s : Source} (h : ¬ beats t w) :
    ¬ beats t (best2 w s) := by
  unfold best2; split
  · exact not_beats_of_not_beats_beats h ‹_›
  · exact h

theorem foldl_pick_some_acc (sp : Species) :
    ∀ (l : List Source) (u : Source),
      l.foldl (pickStep sp) (some u) ≠ none := by
  intro l
  induction l with
  | nil => simp
  | cons s t ih =>
    intro u
    rw [List.foldl_cons]
    unfold pickStep
    by_cases hs : s.supplies sp <;> simp [hs] <;> apply ih

theorem pickWinner_exists (sp : Species) :
    ∀ (l : List Source), (∃ s ∈ l, s.supplies sp = true) →
      ∃ w, pickWinner sp l = some w := by
  intro l
  induction l with
  | nil => rintro ⟨s, hs, _⟩; cases hs
  | cons s t ih =>
    rintro ⟨s', hs', hsup⟩
    unfold pickWinner
    rw [List.foldl_cons]
    by_cases hs : s.supplies sp
    · simp only [pickStep, hs, if_pos]
      cases hr : t.foldl (pickStep sp) (some s) with
      | none => exact absurd hr (foldl_pick_some_acc sp t s)
      | some w => exact ⟨w, rfl⟩
    · rcases List.mem_cons.mp hs' with rfl | hmem
      · exact absurd hsup (by simpa using hs)
      · simpa [pickStep, hs] using ih ⟨s', hmem, hsup⟩

theorem not_beats_trans {a b c : Source}
    (h1 : ¬ beats a b) (h2 : ¬ beats b c) : ¬ beats a c := by
  unfold beats at *; omega

theorem foldl_pick_facts (sp : Species) :
    ∀ (l : List Source) (acc : Option Source) (w : Source),
      l.foldl (pickStep sp) acc = some w →
      ((w ∈ l ∧ w.supplies sp = true) ∨ acc = some w) ∧
        (∀ t ∈ l, t.supplies sp = true → ¬ beats t w) ∧
        (∀ u, acc = some u → ¬ beats u w) := by
  intro l
  induction l with
  | nil =>
    intro acc w h
    simp only [List.foldl_nil] at h
    subst h
    refine ⟨Or.inr rfl, by simp, ?_⟩
    intro u hu
    cases hu
    exact beats_irrefl w
  | cons s t ih =>
    intro acc w h
    rw [List.foldl_cons] at h
    obtain ⟨h1, h2, h3⟩ := ih (pickStep sp acc s) w h
    by_cases hs : s.supplies sp
    · cases acc with
      | none =>
        have hps : pickStep sp none s = some s := by simp [pickStep, hs]
        rw [hps] at h1 h3
        have hsw : ¬ beats s w := h3 s rfl
        refine ⟨?_, ?_, by simp⟩
        · rcases h1 with h1 | h1
          · exact Or.inl ⟨List.mem_cons_of_mem _ h1.1, h1.2⟩
          · cases h1
            exact Or.inl ⟨List.mem_cons_self _ _, hs⟩
        · intro t' ht' hsup'
          rcases List.mem_cons.mp ht' with rfl | hmem
          · exact hsw
          · exact h2 t' hmem hsup'
      | some u =>
        have hps : pickStep sp (some u) s = some (best2 u s) := by
          simp [pickStep, hs]
        rw [hps] at h1 h3
        have hbw : ¬ beats (best2 u s) w := h3 _ rfl
        have hsw : ¬ beats s w :=
          not_beats_trans (best2_not_beaten_right u s) hbw
        have huw : ¬ beats u w :=
          not_beats_trans (best2_not_beaten_left u s) hbw
        refine ⟨?_, ?_, ?_⟩
        · rcases h1 with h1 | h1
          · exact Or.inl ⟨List.mem_cons_of_mem _ h1.1, h1.2⟩
          · cases h1
            rcases best2_cases u s with hc | hc
            · rw [hc]
              exact Or.inr rfl
            · rw [hc]
              exact Or.inl ⟨List.mem_cons_self _ _, hs⟩
        · intro t' ht' hsup'
          rcases List.mem_cons.mp ht' with rfl | hmem
          · exact hsw
          · exact h2 t' hmem hsup'
        · intro u' hu'
          cases hu'
          exact huw
    · have hps : pickStep sp acc s = acc := by simp [pickStep, hs]
      rw [hps] at h1 h3
      refine ⟨?_, ?_, h3⟩
      · rcases h1 with h1 | h1
        · exact Or.inl ⟨List.mem_cons_of_mem _ h1.1, h1.2⟩
        · exact Or.inr h1
      · intro t' ht' hsup'
        rcases List.mem_cons.mp ht' with rfl | hmem
        · exact absurd hsup' (by simpa using hs)
        · exact h2 t' hmem hsup'

theorem mem_dedupAdj {a : Species} : ∀ {l : List Species},
    a ∈ dedupAdj l ↔ a ∈ l := by
  intro l
  induction l with
  | nil => simp [dedupAdj]
  | cons x t ih =>
    cases t with
    | nil => simp [dedupAdj]
    | cons y t' =>
      unfold dedupAdj
      split
      · next hxy =>
        subst hxy
        rw [ih]
        simp
      · simp only [List.mem_cons] at ih ⊢
        rw [ih]

theorem mem_canonSpecies {sp : Species} {l : List Source} :
    sp ∈ canonSpecies l ↔ sp ∈ allSpecies l := by
  unfold canonSpecies
  rw [mem_dedupAdj, List.mem_insertionSort]

theorem supplies_mem_allSpecies {s : Source} {l : List Source} {sp : Species}
    (hs : s ∈ l) (hsup : s.supplies sp = true) : sp ∈ allSpecies l := by
  unfold Source.supplies at hsup
  rw [List.any_eq_true] at hsup
  obtain ⟨r, hr, hrs⟩ := hsup
  rw [decide_eq_true_eq] at hrs
  unfold allSpecies
  rw [List.mem_flatMap]
  exact ⟨s, hs, List.mem_map.mpr ⟨r, hr, hrs⟩⟩

theorem numberFrom_mem_src {n : ℕ} {l : List NormRow} {a : ALevel}
    (h : a ∈ numberFrom n l) :
    ∃ r ∈ l, a.atomic_number = r.atomic_number ∧
      a.ion_charge = r.ion_charge ∧ a.level_index = r.level_index ∧
      a.energy = r.energy ∧ a.g = r.g := by
  induction l generalizing n with
  | nil => simp [numberFrom] at h
  | cons r t ih =>
    simp only [numberFrom, List.mem_cons] at h
    rcases h with h | h
    · exact ⟨r, List.mem_cons_self _ _, by simp [h]⟩
    · obtain ⟨r', hr', hfacts⟩ := ih h
      exact ⟨r', List.mem_cons_of_mem _ hr', hfacts⟩

theorem assignSpecies_mem_src {rows : List NormRow} {a : ALevel}
    (h : a ∈ assignSpecies rows) :
    ∃ r ∈ rows, a.atomic_number = r.atomic_number ∧
      a.ion_charge = r.ion_charge ∧ a.level_index = r.level_index ∧
      a.energy = r.energy ∧ a.g = r.g := by
  unfold assignSpecies at h
  obtain ⟨r, hr, hfacts⟩ := numberFrom_mem_src h
  exact ⟨r, (List.mem_insertionSort energyLe).mp hr, hfacts⟩

/-- **C3**: for every species supplied by at least one source, the Merge
Engine selects a single winning source which is maximal in priority (ties
broken by the explicit tiebreak ordering); the merged output for that
species is exactly the winner's normalized rows, every assigned level of
the species carries attributes of one of the winner's rows (no mixing),
and every losing supplier is reported overridden. -/
theorem claim_C3_merge_selects_winner (l : List Source) (sp : Species)
    (hex : ∃ s ∈ l, s.supplies sp = true) :
    ∃ w, pickWinner sp l = some w ∧ w ∈ l ∧ w.supplies sp = true ∧
      (∀ t ∈ l, t.supplies sp = true →
        t.priority < w.priority ∨
          (t.priority = w.priority ∧ w.tiebreak ≤ t.tiebreak)) ∧
      mergedRows l sp = w.rows.filter (fun r => decide (r.species = sp)) ∧
      (∀ v ∈ levelsFor l sp, ∃ r ∈ w.rows, r.species = sp ∧
        v.energy = r.energy ∧ v.level_index = r.level_index ∧ v.g = r.g) ∧
      (∀ t ∈ l, t.supplies sp = true → t.label ≠ w.label →
        (sp, t.label, w.label) ∈ overriddenReport l) := by
  obtain ⟨w, hw⟩ := pickWinner_exists sp l hex
  obtain ⟨h1, h2, _⟩ := foldl_pick_facts sp l none w hw
  have hwl : w ∈ l ∧ w.supplies sp = true := by
    rcases h1 with h1 | h1
    · exact h1
    · cases h1
  have hmerged : mergedRows l sp =
      w.rows.filter (fun r => decide (r.species = sp)) := by
    unfold mergedRows
    rw [hw]
  refine ⟨w, hw, hwl.1, hwl.2, ?_, hmerged, ?_, ?_⟩
  · intro t ht hsup
    have := h2 t ht hsup
    unfold beats at this
    omega
  · intro v hv
    unfold levelsFor at hv
    rw [hmerged] at hv
    obtain ⟨r, hr, hfacts⟩ := assignSpecies_mem_src hv
    rw [List.mem_filter] at hr
    refine ⟨r, hr.1, ?_, hfacts.2.2.2.1, hfacts.2.2.1, hfacts.2.2.2.2⟩
    exact decide_eq_true_eq.mp hr.2
  · intro t ht hsup hlabel
    unfold overriddenReport
    rw [List.mem_flatMap]
    refine ⟨sp, mem_canonSpecies.mpr (supplies_mem_allSpecies hwl.1 hwl.2), ?_⟩
    rw [hw]
    rw [List.mem_map]
    refine ⟨t, ?_, rfl⟩
    rw [List.mem_filter]
    exact ⟨ht, by simp [hsup, hlabel]⟩

/-- Witness for C3: the spec's example: species `(14, 1)` supplied by
source A (priority 5) and source B (priority 9): B wins, the merged output
is exactly B's rows, A's level energies are absent, and A is reported
overridden by B. -/
theorem claim_C3_witness :
    pickWinner (14, 1) [srcA, srcB] = some srcB ∧
      mergedRows [srcA, srcB] (14, 1) =
        srcB.rows.filter (fun r => decide (r.species = (14, 1))) ∧
      (∀ v ∈ levelsFor [srcA, srcB] (14, 1), v.energy ≠ 4 / 5 ∧ v.energy ≠ 3 / 2) ∧
      ((14, 1), srcA.label, srcB.label) ∈ overriddenReport [srcA, srcB] := by
  obtain ⟨w, hw, _, _, _, hmerged, _, hrep⟩ :=
    claim_C3_merge_selects_winner [srcA, srcB] (14, 1)
      ⟨srcA, List.mem_cons_self _ _, by decide⟩
  have hwB : w = srcB := by
    have hpw : pickWinner (14, 1) [srcA, srcB] = some srcB := by
      with_unfolding_all decide
    rw [hpw] at hw
    exact (Option.some.injEq .. ▸ hw).symm
  subst hwB
  refine ⟨hw, hmerged, by with_unfolding_all decide, ?_⟩
  exact hrep srcA (List.mem_cons_self _ _) (by decide) (by decide)

/-! ## Lemmas about the Transition Matcher -/

theorem nearest_none {lvls : List ALevel} {e ε : ℚ}
    (h : ∀ v ∈ lvls, ε < |v.energy - e|) : nearest lvls e ε = none := by
  unfold nearest
  induction lvls with
  | nil => rfl
  | cons v t ih =>
    rw [List.foldl_cons]
    have hv : ¬ |v.energy - e| ≤ ε := not_le.mpr (h v (List.mem_cons_self _ _))
    have hstep : nearStep e ε none v = none := by
      unfold nearStep
      rw [if_neg hv]
    rw [hstep]
    exact ih fun v' hv' => h v' (List.mem_cons_of_mem _ hv')

theorem matchedOf_set_lines (l : List Source) (ε : ℚ) (src : Source)
    (L : List RawLine) :
    matchedOf l ε { src with lines := L } =
      L.filterMap fun t =>
        ((resolveLine l ε src t).bind validatePair).map (mkMLine src t) := rfl

theorem failCount_set_lines (l : List Source) (ε : ℚ) (src : Source)
    (L : List RawLine) :
    failCount l ε { src with lines := L } =
      L.countP fun t => (resolveLine l ε src t).isNone := rfl

/-- **C7**: a transition (of a source other than the species winner) whose
labeled energy differs from every level energy of its species by more than
the tolerance `ε` is excluded from the matcher's output and increments the
match-failure counter by exactly one; the matching of every other
transition is unchanged. -/
theorem claim_C7_unmatched_dropped_counted (l : List Source) (ε : ℚ)
    (src : Source) (t : RawLine) (ts₁ ts₂ : List RawLine)
    (hnw : isWinner l (t.atomic_number, t.ion_charge) src = false)
    (hfar : ∀ v ∈ levelsFor l (t.atomic_number, t.ion_charge),
      ε < |t.energy_lower - v.energy|) :
    matchedOf l ε { src with lines := ts₁ ++ t :: ts₂ } =
        matchedOf l ε { src with lines := ts₁ ++ ts₂ } ∧
      failCount l ε { src with lines := ts₁ ++ t :: ts₂ } =
        failCount l ε { src with lines := ts₁ ++ ts₂ } + 1 := by
  have hres : resolveLine l ε src t = none := by
    unfold resolveLine
    simp only [hnw, Bool.false_eq_true, if_false]
    rw [nearest_none fun v hv => by
      rw [abs_sub_comm]
      exact hfar v hv]
    rfl
  constructor
  · rw [matchedOf_set_lines, matchedOf_set_lines,
      List.filterMap_append, List.filterMap_append, List.filterMap_cons]
    rw [hres]
    simp
  · rw [failCount_set_lines, failCount_set_lines,
      List.countP_append, List.countP_append, List.countP_cons]
    rw [hres]
    simp only [Option.isNone_none, if_pos]
    omega

/-- Witness for C7: source L's transition with labeled energies far from
both levels of species `(14, 1)` is dropped and counted exactly once. -/
theorem claim_C7_witness :
    matchedOf [srcB, srcL] (1 / 1000)
        { srcL with lines := [] ++ ⟨14, 1, 0, 1, 100, 101, 1⟩ :: [] } =
      matchedOf [srcB, srcL] (1 / 1000) { srcL with lines := [] ++ [] } ∧
      failCount [srcB, srcL] (1 / 1000)
          { srcL with lines := [] ++ ⟨14, 1, 0, 1, 100, 101, 1⟩ :: [] } =
        failCount [srcB, srcL] (1 / 1000) { srcL with lines := [] ++ [] } + 1 :=
  claim_C7_unmatched_dropped_counted [srcB, srcL] (1 / 1000) srcL
    ⟨14, 1, 0, 1, 100, 101, 1⟩ [] []
    (by with_unfolding_all decide)
    (by with_unfolding_all decide)

/-! ## Provenance of consolidated line rows -/

theorem validatePair_lt {q p : ALevel × ALevel}
    (h : validatePair q = some p) : p.1.energy < p.2.energy := by
  unfold validatePair at h
  split at h
  · cases h
    assumption
  · split at h
    · cases h
      assumption
    · cases h

theorem matchedOf_lower_lt_upper {l : List Source} {ε : ℚ} {src : Source} :
    ∀ m ∈ matchedOf l ε src, m.energy_lower < m.energy_upper := by
  intro m hm
  unfold matchedOf at hm
  rw [List.mem_filterMap] at hm
  obtain ⟨t, _, ht⟩ := hm
  rw [Option.map_eq_some'] at ht
  obtain ⟨p, hp, hmk⟩ := ht
  rw [Option.bind_eq_some] at hp
  obtain ⟨q, _, hq⟩ := hp
  have := validatePair_lt hq
  subst hmk
  exact this

theorem tbest_cases (v w : MLine) : tbest v w = v ∨ tbest v w = w := by
  unfold tbest
  split
  · exact Or.inr rfl
  · exact Or.inl rfl

theorem insUpd_mem {k : LKey} {v : MLine} :
    ∀ {st : List (LKey × MLine)}, ∀ x ∈ insUpd k v st,
      x.snd = v ∨ ∃ y ∈ st, x.snd = y.snd := by
  intro st
  induction st with
  | nil =>
    intro x hx
    simp only [insUpd, List.mem_singleton] at hx
    subst hx
    exact Or.inl rfl
  | cons y t ih =>
    intro x hx
    obtain ⟨k', v'⟩ := y
    unfold insUpd at hx
    split at hx
    · rcases List.mem_cons.mp hx with rfl | hx
      · exact Or.inl rfl
      · rcases List.mem_cons.mp hx with rfl | hx
        · exact Or.inr ⟨(k', v'), List.mem_cons_self _ _, rfl⟩
        · exact Or.inr ⟨x, List.mem_cons_of_mem _ hx, rfl⟩
    · split at hx
      · rcases List.mem_cons.mp hx with rfl | hx
        · rcases tbest_cases v' v with hc | hc
          · exact Or.inr ⟨(k', v'), List.mem_cons_self _ _, hc⟩
          · exact Or.inl hc
        · exact Or.inr ⟨x, List.mem_cons_of_mem _ hx, rfl⟩
      · rcases List.mem_cons.mp hx with rfl | hx
        · exact Or.inr ⟨(k', v'), List.mem_cons_self _ _, rfl⟩
        · rcases ih x hx with h | ⟨y, hy, hxy⟩
          · exact Or.inl h
          · exact Or.inr ⟨y, List.mem_cons_of_mem _ hy, hxy⟩

theorem foldIns_mem :
    ∀ (ms : List MLine) (st : List (LKey × MLine)),
      ∀ x ∈ ms.foldl (fun st m => insUpd (mkey m) m st) st,
        (∃ m ∈ ms, x.snd = m) ∨ ∃ y ∈ st, x.snd = y.snd := by
  intro ms
  induction ms with
  | nil =>
    intro st x hx
    exact Or.inr ⟨x, hx, rfl⟩
  | cons m ms ih =>
    intro st x hx
    rw [List.foldl_cons] at hx
    rcases ih _ x hx with ⟨m', hm', hxm⟩ | ⟨y, hy, hxy⟩
    · exact Or.inl ⟨m', List.mem_cons_of_mem _ hm', hxm⟩
    · rcases insUpd_mem y hy with h | ⟨y', hy', hyy⟩
      · exact Or.inl ⟨m, List.mem_cons_self _ _, hxy.trans h⟩
      · exact Or.inr ⟨y', hy', hxy.trans hyy⟩

theorem linesMap_mem {l : List Source} {ε : ℚ} :
    ∀ x ∈ linesMap l ε, ∃ src ∈ l, ∃ m ∈ matchedOf l ε src, x.snd = m := by
  suffices h : ∀ (ll : List Source) (st : List (LKey × MLine)),
      ∀ x ∈ ll.foldl (insertSrc l ε) st,
        (∃ src ∈ ll, ∃ m ∈ matchedOf l ε src, x.snd = m) ∨
          ∃ y ∈ st, x.snd = y.snd by
    intro x hx
    rcases h l [] x hx with hgood | ⟨y, hy, _⟩
    · exact hgood
    · cases hy
  intro ll
  induction ll with
  | nil =>
    intro st x hx
    exact Or.inr ⟨x, hx, rfl⟩
  | cons src ll ih =>
    intro st x hx
    rw [List.foldl_cons] at hx
    rcases ih _ x hx with ⟨src', hsrc', hgood⟩ | ⟨y, hy, hxy⟩
    · exact Or.inl ⟨src', List.mem_cons_of_mem _ hsrc', hgood⟩
    · rcases foldIns_mem _ _ y hy with ⟨m, hm, hym⟩ | ⟨y', hy', hyy⟩
      · exact Or.inl ⟨src, List.mem_cons_self _ _, m, hm, hxy.trans hym⟩
      · exact Or.inr ⟨y', hy', hxy.trans hyy⟩

theorem linesTable_mem {l : List Source} {ε : ℚ} :
    ∀ m ∈ linesTable l ε, ∃ src ∈ l, m ∈ matchedOf l ε src := by
  intro m hm
  unfold linesTable at hm
  rw [List.mem_map] at hm
  obtain ⟨x, hx, hxm⟩ := hm
  obtain ⟨src, hsrc, m', hm', hx2⟩ := linesMap_mem x hx
  exact ⟨src, hsrc, by rw [← hxm, hx2]; exact hm'⟩

/-- **C6**: every line row of the consolidated output table references an
upper level whose energy is strictly greater than the energy of the
referenced lower level. -/
theorem claim_C6_upper_above_lower (l : List Source) (ε : ℚ) :
    ∀ m ∈ linesTable l ε, m.energy_lower < m.energy_upper := by
  intro m hm
  obtain ⟨src, _, hmatched⟩ := linesTable_mem m hm
  exact matchedOf_lower_lt_upper m hmatched

/-- Witness for C6: the concrete consolidated row of the run on source B
satisfies the energy ordering. -/
theorem claim_C6_witness :
    (⟨14, 1, 0, 1, 1667000, 1667001, 0, 1 / 2, 1, 3, 2, 9, 1, 2⟩ : MLine) ∈
        linesTable [srcB] (1 / 1000) ∧
      (0 : ℚ) < 1 / 2 := by
  have htab : linesTable [srcB] (1 / 1000) =
      [⟨14, 1, 0, 1, 1667000, 1667001, 0, 1 / 2, 1, 3, 2, 9, 1, 2⟩] := by
    with_unfolding_all rfl
  have hmem : (⟨14, 1, 0, 1, 1667000, 1667001, 0, 1 / 2, 1, 3, 2, 9, 1, 2⟩ :
      MLine) ∈ linesTable [srcB] (1 / 1000) := by
    rw [htab]
    exact List.mem_singleton.mpr rfl
  exact ⟨hmem, claim_C6_upper_above_lower [srcB] (1 / 1000) _ hmem⟩

/-! ## Lemmas about macro-atom normalization -/

theorem sum_map_div (xs : List ℚ) (c : ℚ) :
    (xs.map (fun x => x / c)).sum = xs.sum / c := by
  induction xs with
  | nil => simp
  | cons x t ih => simp [ih, add_div]

theorem mtGroup_normalize (rows : List MTRow) (sid : ℕ) (tt : TType) :
    mtGroup (mtNormalize rows) sid tt =
      (mtGroup rows sid tt).map
        (fun r => { r with prob := r.prob / gsum rows sid tt }) := by
  unfold mtGroup mtNormalize
  rw [List.filter_map]
  have hpred : ∀ r : MTRow,
      (fun r : MTRow => decide (r.source_level = sid ∧ r.ttype = tt))
          ({ r with prob := r.prob / gsum rows r.source_level r.ttype }) =
        (fun r : MTRow => decide (r.source_level = sid ∧ r.ttype = tt)) r := by
    intro r
    rfl
  rw [List.filter_congr fun r _ => hpred r]
  apply List.map_congr_left
  intro r hr
  rw [List.mem_filter] at hr
  have hfacts : r.source_level = sid ∧ r.ttype = tt := by
    have h2 := hr.2
    simp only [Function.comp_apply, decide_eq_true_eq] at h2
    exact h2
  rw [hfacts.1, hfacts.2]

theorem mtGroup_sorted_perm (rows : List MTRow) (sid : ℕ) (tt : TType) :
    List.Perm (mtGroup (List.insertionSort mtLe rows) sid tt)
      (mtGroup rows sid tt) :=
  (List.perm_insertionSort mtLe rows).filter _

/-- **C5**: in the macro-atom transition table, whenever the rows sharing a
`(source level_id, transition type)` key form a nonempty group (and the
underlying weights are positive), the normalized probabilities of that
group sum to 1 within tolerance `1e-9`; a level may have no rows at all for
a given transition type. -/
theorem claim_C5_group_prob_sum (l : List Source) (ε : ℚ) (sid : ℕ)
    (tt : TType)
    (hpos : ∀ r ∈ mtRaw (linesTable l ε), 0 < r.prob)
    (hne : mtGroup (mtTable l ε) sid tt ≠ []) :
    |((mtGroup (mtTable l ε) sid tt).map MTRow.prob).sum - 1| ≤
      1 / 1000000000 := by
  have hperm : List.Perm (mtGroup (mtTable l ε) sid tt)
      (mtGroup (mtNormalize (mtRaw (linesTable l ε))) sid tt) :=
    mtGroup_sorted_perm _ sid tt
  have hsum : ((mtGroup (mtTable l ε) sid tt).map MTRow.prob).sum =
      ((mtGroup (mtNormalize (mtRaw (linesTable l ε))) sid tt).map
        MTRow.prob).sum :=
    (hperm.map MTRow.prob).sum_eq
  have hne2 : mtGroup (mtRaw (linesTable l ε)) sid tt ≠ [] := by
    intro hempty
    apply hne
    have : mtGroup (mtNormalize (mtRaw (linesTable l ε))) sid tt = [] := by
      rw [mtGroup_normalize, hempty]
      rfl
    have hlen := hperm.length_eq
    rw [this] at hlen
    exact List.eq_nil_of_length_eq_zero hlen
  have hS : 0 < gsum (mtRaw (linesTable l ε)) sid tt := by
    apply List.sum_pos
    · intro x hx
      rw [List.mem_map] at hx
      obtain ⟨r, hr, hrx⟩ := hx
      unfold mtGroup at hr
      rw [List.mem_filter] at hr
      exact hrx ▸ hpos r hr.1
    · intro hmapnil
      exact hne2 (List.map_eq_nil_iff.mp hmapnil)
  have hone : ((mtGroup (mtNormalize (mtRaw (linesTable l ε))) sid tt).map
      MTRow.prob).sum = 1 := by
    rw [mtGroup_normalize, List.map_map]
    have : (MTRow.prob ∘ fun r =>
        { r with prob := r.prob / gsum (mtRaw (linesTable l ε)) sid tt }) =
        fun r : MTRow => r.prob / gsum (mtRaw (linesTable l ε)) sid tt := rfl
    rw [this]
    have hcomp : (fun r : MTRow =>
        r.prob / gsum (mtRaw (linesTable l ε)) sid tt) =
        (fun x : ℚ => x / gsum (mtRaw (linesTable l ε)) sid tt) ∘
          MTRow.prob := rfl
    rw [hcomp, ← List.map_map, sum_map_div]
    exact div_self (ne_of_gt hS)
  rw [hsum, hone]
  simp

/-- Witness for C5: in the run on source B, the upward-radiative group of
the ground level (`level_id` 1667000) is nonempty and its probabilities
sum to 1 within tolerance. -/
theorem claim_C5_witness :
    ((∀ r ∈ mtRaw (linesTable [srcB] (1 / 1000)), 0 < r.prob) ∧
        mtGroup (mtTable [srcB] (1 / 1000)) 1667000 TType.upRad ≠ []) ∧
      |((mtGroup (mtTable [srcB] (1 / 1000)) 1667000 TType.upRad).map
          MTRow.prob).sum - 1| ≤ 1 / 1000000000 := by
  have h1 : ∀ r ∈ mtRaw (linesTable [srcB] (1 / 1000)), 0 < r.prob := by
    with_unfolding_all decide
  have h2 : mtGroup (mtTable [srcB] (1 / 1000)) 1667000 TType.upRad ≠ [] := by
    with_unfolding_all decide
  exact ⟨⟨h1, h2⟩, claim_C5_group_prob_sum [srcB] (1 / 1000) 1667000
    TType.upRad h1 h2⟩

/-! ## Lemmas about the run modes -/

/-- **C9**: per-species output is all-or-nothing: every species group kept
by the lenient run satisfies the consistency checks; a violating group is
entirely omitted from the lenient output and recorded in the violation
report; a strict run that succeeds contains only valid groups; and any
violation makes the strict run abort with an error. -/
theorem claim_C9_all_or_nothing (l : List Source) (ε : ℚ) :
    (∀ o ∈ (runLenient l ε).1, speciesValid o = true) ∧
      (∀ o ∈ speciesOutputs l ε, speciesValid o = false →
        o ∉ (runLenient l ε).1 ∧ o.sp ∈ (runLenient l ε).2) ∧
      (∀ outs, runStrict l ε = .ok outs →
        ∀ o ∈ outs, speciesValid o = true) ∧
      (∀ o ∈ speciesOutputs l ε, speciesValid o = false →
        ∃ sp, runStrict l ε = .error sp) := by
  refine ⟨?_, ?_, ?_, ?_⟩
  · intro o ho
    exact (List.mem_filter.mp ho).2
  · intro o ho hbad
    constructor
    · intro hmem
      have := (List.mem_filter.mp hmem).2
      rw [hbad] at this
      cases this
    · unfold runLenient
      rw [List.mem_map]
      refine ⟨o, ?_, rfl⟩
      rw [List.mem_filter]
      exact ⟨ho, by rw [hbad]; rfl⟩
  · intro outs hok o ho
    unfold runStrict at hok
    split at hok
    · cases hok
    · next hfind =>
      cases hok
      have := List.find?_eq_none.mp hfind o ho
      simpa using this
  · intro o ho hbad
    unfold runStrict
    split
    · next o' _ => exact ⟨o'.sp, rfl⟩
    · next hfind =>
      have := List.find?_eq_none.mp hfind o ho
      rw [hbad] at this
      cases this rfl

/-- Witness for C9: the run on source B succeeds strictly and all its
species groups are valid. -/
theorem claim_C9_witness :
    runStrict [srcB] (1 / 1000) = .ok (speciesOutputs [srcB] (1 / 1000)) ∧
      ∀ o ∈ speciesOutputs [srcB] (1 / 1000), speciesValid o = true := by
  have hok : runStrict [srcB] (1 / 1000) =
      .ok (speciesOutputs [srcB] (1 / 1000)) := by
    with_unfolding_all rfl
  exact ⟨hok, (claim_C9_all_or_nothing [srcB] (1 / 1000)).2.2.1 _ hok⟩

/-! ## Order independence: canonical species list -/

theorem canonSpecies_perm {l l' : List Source} (h : List.Perm l l') :
    canonSpecies l = canonSpecies l' := by
  unfold canonSpecies
  congr 1
  apply List.eq_of_perm_of_sorted (r := spLe)
  · exact (List.perm_insertionSort spLe (allSpecies l)).trans
      ((h.flatMap_right _).trans
        (List.perm_insertionSort spLe (allSpecies l')).symm)
  · exact List.sorted_insertionSort spLe (allSpecies l)
  · exact List.sorted_insertionSort spLe (allSpecies l')

/-! ## Order independence: winner selection -/

theorem best2_comm {x y : Source} (hne : x.tiebreak ≠ y.tiebreak) :
    best2 x y = best2 y x := by
  unfold best2
  split_ifs <;> first
    | rfl
    | (exfalso; unfold beats at *; omega)

theorem best2_comm3 {x y : Source} (hne : x.tiebreak ≠ y.tiebreak)
    (w : Source) : best2 (best2 w x) y = best2 (best2 w y) x := by
  unfold best2
  split_ifs <;> first
    | rfl
    | (exfalso; unfold beats at *; omega)

theorem pickStep_comm {sp : Species} {x y : Source}
    (hxy : x.tiebreak ≠ y.tiebreak ∨ x = y) (z : Option Source) :
    pickStep sp (pickStep sp z x) y = pickStep sp (pickStep sp z y) x := by
  rcases hxy with hne | rfl
  · by_cases hx : x.supplies sp <;> by_cases hy : y.supplies sp
    · cases z with
      | none =>
        simp only [pickStep, hx, hy, if_pos]
        rw [best2_comm hne]
      | some w =>
        simp only [pickStep, hx, hy, if_pos]
        rw [best2_comm3 hne]
    · simp [pickStep, hx, hy]
    · simp [pickStep, hx, hy]
    · simp [pickStep, hx, hy]
  · rfl

theorem pickWinner_perm {l l' : List Source} (sp : Species)
    (hperm : List.Perm l l')
    (htb : l.Pairwise fun a b => a.tiebreak ≠ b.tiebreak) :
    pickWinner sp l = pickWinner sp l' := by
  unfold pickWinner
  apply hperm.foldl_eq'
  intro x hx y hy z
  by_cases hxy : x = y
  · subst hxy
    rfl
  · have hsym : Symmetric fun a b : Source => a.tiebreak ≠ b.tiebreak :=
      fun a b h heq => h heq.symm
    exact pickStep_comm (Or.inl (htb.forall hsym hx hy hxy)) z

/-! ## Order independence: the deduplicating line map -/

theorem keyLt_irrefl (a : LKey) : ¬ keyLt a a := by
  unfold keyLt; omega

theorem keyLt_asymm {a b : LKey} (h : keyLt a b) : ¬ keyLt b a := by
  unfold keyLt at *; omega

theorem keyLt_trans {a b c : LKey} (h1 : keyLt a b) (h2 : keyLt b c) :
    keyLt a c := by
  unfold keyLt at *; omega

theorem keyLt_ne {a b : LKey} (h : keyLt a b) : a ≠ b := by
  intro heq
  subst heq
  exact keyLt_irrefl a h

theorem keyLt_trichotomy (a b : LKey) : keyLt a b ∨ a = b ∨ keyLt b a := by
  obtain ⟨a1, a2, a3, a4⟩ := a
  obtain ⟨b1, b2, b3, b4⟩ := b
  unfold keyLt
  simp only [Prod.mk.injEq]
  omega

theorem tbest_comm {v w : MLine} (h : v.tiebreak ≠ w.tiebreak ∨ v = w) :
    tbest v w = tbest w v := by
  rcases h with hne | rfl
  · unfold tbest
    split_ifs <;> first
      | rfl
      | (exfalso; unfold tbeats at *; omega)
  · rfl

theorem tbest_comm3 {v w : MLine} (h : v.tiebreak ≠ w.tiebreak ∨ v = w)
    (u : MLine) : tbest (tbest u v) w = tbest (tbest u w) v := by
  rcases h with hne | rfl
  · unfold tbest
    split_ifs <;> first
      | rfl
      | (exfalso; unfold tbeats at *; omega)
  · rfl

theorem insUpd_comm_eq {k : LKey} {v₁ v₂ : MLine}
    (h : v₁.tiebreak ≠ v₂.tiebreak ∨ v₁ = v₂) :
    ∀ st, insUpd k v₁ (insUpd k v₂ st) = insUpd k v₂ (insUpd k v₁ st) := by
  have hsymm : v₂.tiebreak ≠ v₁.tiebreak ∨ v₂ = v₁ := by
    rcases h with h | h
    · exact Or.inl h.symm
    · exact Or.inr h.symm
  intro st
  induction st with
  | nil =>
    simp only [insUpd, if_neg (keyLt_irrefl k), if_pos rfl]
    rw [tbest_comm hsymm]
    simp
  | cons y t ih =>
    obtain ⟨k₀, v₀⟩ := y
    by_cases hlt : keyLt k k₀
    · simp only [insUpd, if_pos hlt, if_neg (keyLt_irrefl k), if_pos rfl]
      rw [tbest_comm hsymm]
      simp
    · by_cases heq : k = k₀
      · subst heq
        simp only [insUpd, if_neg hlt, if_pos rfl]
        rw [tbest_comm3 hsymm]
        simp
      · simp only [insUpd, if_neg hlt, if_neg heq]
        rw [ih]

theorem insUpd_comm_lt {k₁ k₂ : LKey} {v₁ v₂ : MLine} (hlt : keyLt k₁ k₂) :
    ∀ st, insUpd k₁ v₁ (insUpd k₂ v₂ st) = insUpd k₂ v₂ (insUpd k₁ v₁ st) := by
  have hnlt : ¬ keyLt k₂ k₁ := keyLt_asymm hlt
  have hne : k₁ ≠ k₂ := keyLt_ne hlt
  have hne' : k₂ ≠ k₁ := fun hx => hne hx.symm
  intro st
  induction st with
  | nil =>
    simp only [insUpd, if_pos hlt, if_neg hnlt, if_neg hne']
  | cons y t ih =>
    obtain ⟨k₀, v₀⟩ := y
    by_cases h2lt : keyLt k₂ k₀
    · have h1lt : keyLt k₁ k₀ := keyLt_trans hlt h2lt
      simp only [insUpd, if_pos h2lt, if_pos hlt, if_pos h1lt, if_neg hnlt,
        if_neg hne']
    · by_cases h2eq : k₂ = k₀
      · subst h2eq
        simp only [insUpd, if_neg h2lt, if_pos rfl, if_pos hlt, if_neg hnlt,
          if_neg hne']
        simp
      · by_cases h1lt : keyLt k₁ k₀
        · simp only [insUpd, if_neg h2lt, if_neg h2eq, if_pos h1lt,
            if_neg hnlt, if_neg hne']
        · by_cases h1eq : k₁ = k₀
          · subst h1eq
            simp only [insUpd, if_neg h2lt, if_neg h2eq, if_neg h1lt,
              if_pos rfl, if_neg hnlt, if_neg hne']
            simp
          · simp only [insUpd, if_neg h2lt, if_neg h2eq, if_neg h1lt,
              if_neg h1eq]
            rw [ih]

theorem insUpd_comm {k₁ k₂ : LKey} {v₁ v₂ : MLine}
    (h : k₁ = k₂ → (v₁.tiebreak ≠ v₂.tiebreak ∨ v₁ = v₂)) (st) :
    insUpd k₁ v₁ (insUpd k₂ v₂ st) = insUpd k₂ v₂ (insUpd k₁ v₁ st) := by
  rcases keyLt_trichotomy k₁ k₂ with hlt | heq | hgt
  · exact insUpd_comm_lt hlt st
  · subst heq
    exact insUpd_comm_eq (h rfl) st
  · exact (insUpd_comm_lt hgt st).symm

theorem insOne_foldIns_comm {m : MLine} {ms : List MLine}
    (h : ∀ m₂ ∈ ms, m.tiebreak ≠ m₂.tiebreak) :
    ∀ st, insUpd (mkey m) m
        (ms.foldl (fun st m' => insUpd (mkey m') m' st) st) =
      ms.foldl (fun st m' => insUpd (mkey m') m' st)
        (insUpd (mkey m) m st) := by
  induction ms with
  | nil => intro st; rfl
  | cons m₂ t ih =>
    intro st
    rw [List.foldl_cons, List.foldl_cons]
    rw [ih fun m' hm' => h m' (List.mem_cons_of_mem _ hm')]
    rw [insUpd_comm fun _ => Or.inl (h m₂ (List.mem_cons_self _ _))]

theorem foldIns_comm {ms₁ ms₂ : List MLine}
    (h : ∀ m₁ ∈ ms₁, ∀ m₂ ∈ ms₂, m₁.tiebreak ≠ m₂.tiebreak) :
    ∀ st, ms₁.foldl (fun st m => insUpd (mkey m) m st)
        (ms₂.foldl (fun st m => insUpd (mkey m) m st) st) =
      ms₂.foldl (fun st m => insUpd (mkey m) m st)
        (ms₁.foldl (fun st m => insUpd (mkey m) m st) st) := by
  induction ms₁ with
  | nil => intro st; rfl
  | cons m₁ t₁ ih =>
    intro st
    rw [List.foldl_cons]
    rw [insOne_foldIns_comm (h m₁ (List.mem_cons_self _ _))]
    rw [ih fun m hm m₂ hm₂ => h m (List.mem_cons_of_mem _ hm) m₂ hm₂]
    rw [List.foldl_cons]

theorem matchedOf_tiebreak {l : List Source} {ε : ℚ} {src : Source} :
    ∀ m ∈ matchedOf l ε src, m.tiebreak = src.tiebreak := by
  intro m hm
  unfold matchedOf at hm
  rw [List.mem_filterMap] at hm
  obtain ⟨t, _, ht⟩ := hm
  rw [Option.map_eq_some'] at ht
  obtain ⟨p, _, hmk⟩ := ht
  rw [← hmk]
  rfl

theorem insertSrc_comm {l : List Source} {ε : ℚ} {x y : Source}
    (hxy : x.tiebreak ≠ y.tiebreak ∨ x = y) (st : List (LKey × MLine)) :
    insertSrc l ε (insertSrc l ε st x) y =
      insertSrc l ε (insertSrc l ε st y) x := by
  rcases hxy with hne | rfl
  · unfold insertSrc
    apply foldIns_comm
    intro m₁ hm₁ m₂ hm₂
    rw [matchedOf_tiebreak m₁ hm₁, matchedOf_tiebreak m₂ hm₂]
    exact fun hx => hne hx.symm
  · rfl

theorem levelsFor_congr {l l' : List Source}
    (hw : ∀ sp, pickWinner sp l = pickWinner sp l') (sp : Species) :
    levelsFor l sp = levelsFor l' sp := by
  unfold levelsFor mergedRows
  rw [hw]

theorem resolveLine_congr {l l' : List Source}
    (hw : ∀ sp, pickWinner sp l = pickWinner sp l') (ε : ℚ) (src : Source)
    (t : RawLine) : resolveLine l ε src t = resolveLine l' ε src t := by
  simp only [resolveLine, isWinner]
  rw [levelsFor_congr hw (t.atomic_number, t.ion_charge)]
  simp only [hw]

theorem matchedOf_congr {l l' : List Source}
    (hw : ∀ sp, pickWinner sp l = pickWinner sp l') (ε : ℚ) (src : Source) :
    matchedOf l ε src = matchedOf l' ε src := by
  unfold matchedOf
  simp only [show ∀ t, resolveLine l ε src t = resolveLine l' ε src t from
    resolveLine_congr hw ε src]

theorem insertSrc_congr {l l' : List Source}
    (hw : ∀ sp, pickWinner sp l = pickWinner sp l') (ε : ℚ)
    (st : List (LKey × MLine)) (src : Source) :
    insertSrc l ε st src = insertSrc l' ε st src := by
  unfold insertSrc
  rw [matchedOf_congr hw ε src]

theorem linesMap_perm {l l' : List Source} (ε : ℚ)
    (hperm : List.Perm l l')
    (htb : l.Pairwise fun a b => a.tiebreak ≠ b.tiebreak) :
    linesMap l ε = linesMap l' ε := by
  have hw : ∀ sp, pickWinner sp l = pickWinner sp l' :=
    fun sp => pickWinner_perm sp hperm htb
  unfold linesMap
  have hfold : ∀ (ll : List Source) (st : List (LKey × MLine)),
      ll.foldl (insertSrc l' ε) st = ll.foldl (insertSrc l ε) st := by
    intro ll
    induction ll with
    | nil => intro st; rfl
    | cons src t ih =>
      intro st
      rw [List.foldl_cons, List.foldl_cons, ih,
        insertSrc_congr hw ε st src]
  rw [hfold l' []]
  apply hperm.foldl_eq'
  intro x hx y hy st
  by_cases hxy : x = y
  · subst hxy; rfl
  · have hsym : Symmetric fun a b : Source => a.tiebreak ≠ b.tiebreak :=
      fun a b h heq => h heq.symm
    exact insertSrc_comm (Or.inl (htb.forall hsym hx hy hxy)) st

/-- **C4**: supplying the same set of per-source tables in any other order
(sources carrying their explicit priorities and tiebreak ranks, the
tiebreak ranks pairwise distinct) produces identical output tables: the
canonical species list, the level tables, the consolidated line table, the
macro-atom transition table, the per-species outputs and both run modes all
coincide. -/
theorem claim_C4_order_independence (l l' : List Source) (ε : ℚ)
    (hperm : List.Perm l l')
    (htb : l.Pairwise fun a b => a.tiebreak ≠ b.tiebreak) :
    canonSpecies l = canonSpecies l' ∧
      levelsTable l = levelsTable l' ∧
      levelsPairs l = levelsPairs l' ∧
      linesTable l ε = linesTable l' ε ∧
      mtTable l ε = mtTable l' ε ∧
      speciesOutputs l ε = speciesOutputs l' ε ∧
      runLenient l ε = runLenient l' ε ∧
      runStrict l ε = runStrict l' ε := by
  have hw : ∀ sp, pickWinner sp l = pickWinner sp l' :=
    fun sp => pickWinner_perm sp hperm htb
  have hcanon : canonSpecies l = canonSpecies l' := canonSpecies_perm hperm
  have hfl : levelsFor l = levelsFor l' := funext (levelsFor_congr hw)
  have hlines : linesTable l ε = linesTable l' ε := by
    unfold linesTable
    rw [linesMap_perm ε hperm htb]
  have hso : speciesOutputs l ε = speciesOutputs l' ε := by
    unfold speciesOutputs
    rw [hcanon, hfl, hlines]
  refine ⟨hcanon, ?_, ?_, hlines, ?_, hso, ?_, ?_⟩
  · unfold levelsTable
    rw [hcanon, hfl]
  · unfold levelsPairs
    rw [hcanon, hfl]
  · unfold mtTable
    rw [hlines]
  · unfold runLenient
    rw [hso]
  · unfold runStrict
    rw [hso]

/-- Witness for C4: the two-source run supplied as `[A, B]` and as
`[B, A]` produces identical outputs. -/
theorem claim_C4_witness :
    (List.Perm [srcA, srcB] [srcB, srcA] ∧
        List.Pairwise (fun a b : Source => a.tiebreak ≠ b.tiebreak)
          [srcA, srcB]) ∧
      (canonSpecies [srcA, srcB] = canonSpecies [srcB, srcA] ∧
        levelsTable [srcA, srcB] = levelsTable [srcB, srcA] ∧
        levelsPairs [srcA, srcB] = levelsPairs [srcB, srcA] ∧
        linesTable [srcA, srcB] (1 / 1000) = linesTable [srcB, srcA] (1 / 1000) ∧
        mtTable [srcA, srcB] (1 / 1000) = mtTable [srcB, srcA] (1 / 1000) ∧
        speciesOutputs [srcA, srcB] (1 / 1000) =
          speciesOutputs [srcB, srcA] (1 / 1000) ∧
        runLenient [srcA, srcB] (1 / 1000) = runLenient [srcB, srcA] (1 / 1000) ∧
        runStrict [srcA, srcB] (1 / 1000) = runStrict [srcB, srcA] (1 / 1000)) := by
  have hperm : List.Perm [srcA, srcB] [srcB, srcA] := List.Perm.swap srcB srcA []
  have htb : List.Pairwise (fun a b : Source => a.tiebreak ≠ b.tiebreak)
      [srcA, srcB] := by decide
  exact ⟨⟨hperm, htb⟩,
    claim_C4_order_independence [srcA, srcB] [srcB, srcA] (1 / 1000) hperm htb⟩

end Carsus
